import Mathlib

/-! Shallow embedding of the pi-rtk-noemoji output-compaction engine.

Strings of the TypeScript source are modelled as `List Char`.  Each JavaScript
regular expression used by the scanners is translated into an explicit,
executable scanning function on character lists; every greedy sub-pattern of
those regexes is followed by a character class disjoint from the repeated one,
so maximal-munch scanning reproduces the backtracking engine exactly.
JavaScript string primitives (`split`, `join`, `trim`, `toLowerCase`,
`indexOf`, `parseInt`, decimal rendering of numbers) are modelled by the
executable helpers below; the ASCII fragments they touch behave identically. -/

namespace Rtk

/-- Character list of a string literal. -/
def lc (s : String) : List Char := s.toList

/-- The ASCII escape character (JS `"\x1b"`). -/
def escChar : Char := Char.ofNat 27

/-- The BEL character (JS `"\x07"`). -/
def belChar : Char := Char.ofNat 7

/-- The apostrophe character. -/
def apos : Char := Char.ofNat 39

/-- Whitespace recognised by JS `\s` and `String.prototype.trim` (the ASCII
part: space, tab, line feed, vertical tab, form feed, carriage return; the
scanners only ever meet ASCII whitespace). -/
def jsWs (c : Char) : Bool :=
  c == ' ' || c == '\t' || c == '\n' || c == '\r' || c == Char.ofNat 11 || c == Char.ofNat 12

/-- JS `String.prototype.trim`: drop leading and trailing whitespace. -/
def trimStr (l : List Char) : List Char :=
  ((l.dropWhile jsWs).reverse.dropWhile jsWs).reverse

/-- JS `String.prototype.toLowerCase` (ASCII behaviour). -/
def lowerStr (l : List Char) : List Char := l.map Char.toLower

/-- JS `text.split(sep)` for a one-character separator. -/
def splitOnChar (sep : Char) : List Char → List (List Char)
  | [] => [[]]
  | c :: rest =>
    if c = sep then [] :: splitOnChar sep rest
    else
      match splitOnChar sep rest with
      | h :: t => (c :: h) :: t
      | [] => [[c]]

/-- JS `text.split("\n")`. -/
def splitLines : List Char → List (List Char) := splitOnChar '\n'

/-- JS `lines.join("\n")`. -/
def joinLines : List (List Char) → List Char
  | [] => []
  | [l] => l
  | l :: ls => l ++ '\n' :: joinLines ls

/-- Number of lines of a text, as produced by `splitLines`. -/
def countLines (l : List Char) : Nat := (splitLines l).length

/-- ASCII decimal digit. -/
def isDigitChar (c : Char) : Bool := '0' ≤ c && c ≤ '9'

/-- JS `\w`: ASCII letters, digits and underscore. -/
def isWordChar (c : Char) : Bool :=
  ('a' ≤ c && c ≤ 'z') || ('A' ≤ c && c ≤ 'Z') || isDigitChar c || c == '_'

/-- ASCII letter, the final class of the CSI regex. -/
def isAsciiLetter (c : Char) : Bool := ('a' ≤ c && c ≤ 'z') || ('A' ≤ c && c ≤ 'Z')

/-- The decimal digit character for `n < 10`. -/
def digitChar (n : Nat) : Char := Char.ofNat (48 + n)

/-- Decimal digits of `n`, prepended to `acc`.  The fuel only bounds the
recursion: `n` itself always suffices since `n / 10 < n`. -/
def toDigitsGo : Nat → Nat → List Char → List Char
  | 0, _, acc => acc
  | fuel + 1, n, acc =>
    if n < 10 then digitChar n :: acc
    else toDigitsGo fuel (n / 10) (digitChar (n % 10) :: acc)

/-- JS rendering of a nonnegative number in a template string. -/
def numStr (n : Nat) : List Char := toDigitsGo (n + 1) n []

/-- JS rendering of a (possibly negative) integer. -/
def intStr (n : Int) : List Char :=
  if n < 0 then '-' :: numStr n.natAbs else numStr n.natAbs

/-- Value of a digit string. -/
def digitsVal (l : List Char) : Nat :=
  l.foldl (fun acc c => 10 * acc + (c.toNat - 48)) 0

/-- JS `parseInt(s, 10) || 0` applied to a capture-group string.  The groups in
question are `\w+`/`\d+` matches, so no sign or leading whitespace occurs: the
result is the value of the leading digit run, and 0 when there is none
(`parseInt` yields `NaN` there, which `|| 0` maps to 0). -/
def parseIntOr0 (l : List Char) : Nat :=
  let ds := l.takeWhile isDigitChar
  if ds.isEmpty then 0 else digitsVal ds

/-- JS `hay.indexOf(needle)`, as an `Option`. -/
def indexOfSub (needle : List Char) : List Char → Option Nat
  | [] => if needle.isPrefixOf ([] : List Char) then some 0 else none
  | c :: rest =>
    if needle.isPrefixOf (c :: rest) then some 0
    else (indexOfSub needle rest).map (· + 1)

/-- JS `hay.includes(needle)`. -/
def containsSub (needle hay : List Char) : Bool := (indexOfSub needle hay).isSome

/-! ### ANSI stripper (`techniques/ansi.ts`) -/

/-- Parameter class `[0-9;]` of the CSI and OSC regexes. -/
def isCsiParam (c : Char) : Bool := isDigitChar c || c == ';'

/-- Match of `/\x1b\[[0-9;]*[a-zA-Z]/` at the head of the input; returns the
rest after the match. -/
def csiMatch : List Char → Option (List Char)
  | a :: b :: rest =>
    if a == escChar && b == '[' then
      match rest.dropWhile isCsiParam with
      | d :: r => if isAsciiLetter d then some r else none
      | [] => none
    else none
  | _ => none

/-- Match of `/\x1b\][0-9;]*(?:\x07|\x1b\\)/` at the head of the input. -/
def osc1Match : List Char → Option (List Char)
  | a :: b :: rest =>
    if a == escChar && b == ']' then
      match rest.dropWhile isCsiParam with
      | c :: r =>
        if c == belChar then some r
        else if c == escChar then
          match r with
          | d :: r2 => if d == '\\' then some r2 else none
          | [] => none
        else none
      | [] => none
    else none
  | _ => none

/-- Match of `/\x1b\][^\x07\x1b]*(?:\x07|\x1b\\)/` at the head of the input. -/
def osc2Match : List Char → Option (List Char)
  | a :: b :: rest =>
    if a == escChar && b == ']' then
      match rest.dropWhile (fun c => !(c == belChar) && !(c == escChar)) with
      | c :: r =>
        if c == belChar then some r
        else
          match r with
          | d :: r2 => if d == '\\' then some r2 else none
          | [] => none
      | [] => none
    else none
  | _ => none

/-- One global-replace-by-empty pass: at each position either remove a match of
`m` or keep the character.  `fuel` only bounds the recursion: a match consumes
at least one character, so `fuel = l.length` always suffices. -/
def replGo (m : List Char → Option (List Char)) : Nat → List Char → List Char
  | 0, l => l
  | _ + 1, [] => []
  | fuel + 1, c :: rest =>
    match m (c :: rest) with
    | some r => replGo m fuel r
    | none => c :: replGo m fuel rest

/-- JS `text.replace(pattern, "")` for a global regex without anchors. -/
def replAll (m : List Char → Option (List Char)) (l : List Char) : List Char :=
  replGo m l.length l

/-- `stripAnsi` of `techniques/ansi.ts`: the three global replaces in source
order. -/
def stripAnsi (text : List Char) : List Char :=
  replAll osc2Match (replAll osc1Match (replAll csiMatch text))

/-- JS `text.includes("\x1b")`. -/
def hasEsc (l : List Char) : Bool := l.any (fun c => c == escChar)

/-- `stripAnsiFast` of `techniques/ansi.ts`. -/
def stripAnsiFast (text : List Char) : List Char :=
  if hasEsc text then stripAnsi text else text

/-! ### Build output filtering (`techniques/build.ts`) -/

/-- `BUILD_COMMANDS`. -/
def buildCommands : List (List Char) :=
  [lc ("cargo build"), lc ("cargo check"), lc ("bun build"), lc ("npm run build"),
   lc ("yarn build"), lc ("pnpm build"), lc ("tsc"), lc ("make"), lc ("cmake"),
   lc ("gradle"), lc ("mvn"), lc ("go build"), lc ("go install"),
   lc ("python setup.py build"), lc ("pip install")]

/-- `isBuildCommand`: case-insensitive substring containment of a known build
invocation. -/
def isBuildCommand (command : List Char) : Bool :=
  if command.isEmpty then false
  else buildCommands.any (fun bc => containsSub (lowerStr bc) (lowerStr command))

/-- `word` at the head of `l` followed by at least one whitespace character
(the `word\s+` shape shared by the progress-line regexes). -/
def headWordWs (word : List Char) (l : List Char) : Bool :=
  word.isPrefixOf l &&
    match l.drop word.length with
    | c :: _ => jsWs c
    | [] => false

/-- `/^\s*(Compiling|Checking|Building)\s+/`: the compilation-unit counter. -/
def isUnitLine (l : List Char) : Bool :=
  let r := l.dropWhile jsWs
  headWordWs (lc ("Compiling")) r || headWordWs (lc ("Checking")) r ||
    headWordWs (lc ("Building")) r

/-- The words of `SKIP_PATTERNS` (each used as `/^\s*Word\s+/`). -/
def skipWords : List (List Char) :=
  [lc ("Compiling"), lc ("Checking"), lc ("Downloading"), lc ("Downloaded"),
   lc ("Fetching"), lc ("Fetched"), lc ("Updating"), lc ("Updated"),
   lc ("Building"), lc ("Generated"), lc ("Creating"), lc ("Running")]

/-- `isSkipLine`. -/
def isSkipLine (l : List Char) : Bool :=
  skipWords.any (fun w => headWordWs w (l.dropWhile jsWs))

/-- `isErrorStart`: `ERROR_START_PATTERNS` (`/^error\[/`, `/^error:/`,
`/^\[ERROR\]/`, `/^FAIL/`). -/
def isErrorStart (l : List Char) : Bool :=
  (lc ("error[")).isPrefixOf l || (lc ("error:")).isPrefixOf l ||
    (lc ("[ERROR]")).isPrefixOf l || (lc ("FAIL")).isPrefixOf l

/-- `isWarning`: `WARNING_PATTERNS` (`/^warning:/`, `/^\[WARNING\]/`,
`/^warn:/`). -/
def isWarning (l : List Char) : Bool :=
  (lc ("warning:")).isPrefixOf l || (lc ("[WARNING]")).isPrefixOf l ||
    (lc ("warn:")).isPrefixOf l

/-- Error-block continuation: `/^\s/` or `/^-->/`. -/
def isContinuation (l : List Char) : Bool :=
  (match l with | c :: _ => jsWs c | [] => false) || (lc ("-->")).isPrefixOf l

/-- The mutable scan state of `filterBuildOutput`'s loop (`BuildStats` plus the
loop variables). -/
structure BuildScan where
  compiled : Nat
  errors : List (List (List Char))
  warnings : List (List Char)
  inErrorBlock : Bool
  currentError : List (List Char)
  blankCount : Nat
deriving DecidableEq

def buildScanInit : BuildScan := ⟨0, [], [], false, [], 0⟩

/-- One iteration of `filterBuildOutput`'s `for (const line of lines)` loop. -/
def buildStep (st : BuildScan) (line : List Char) : BuildScan :=
  if isUnitLine line then { st with compiled := st.compiled + 1 }
  else if isSkipLine line then st
  else if isErrorStart line then
    let st1 :=
      if st.inErrorBlock ∧ st.currentError ≠ [] then
        { st with errors := st.errors ++ [st.currentError] }
      else st
    { st1 with inErrorBlock := true, currentError := [line], blankCount := 0 }
  else if isWarning line then { st with warnings := st.warnings ++ [line] }
  else if st.inErrorBlock then
    if trimStr line = [] then
      if st.blankCount + 1 ≥ 2 ∧ st.currentError.length > 3 then
        { st with errors := st.errors ++ [st.currentError], inErrorBlock := false,
                  currentError := [], blankCount := st.blankCount + 1 }
      else { st with currentError := st.currentError ++ [line],
                     blankCount := st.blankCount + 1 }
    else if isContinuation line then
      { st with currentError := st.currentError ++ [line], blankCount := 0 }
    else
      { st with errors := st.errors ++ [st.currentError], inErrorBlock := false,
                currentError := [] }
  else st

/-- The whole scan, including the final flush of a still-open block. -/
def buildScanLines (lines : List (List Char)) : BuildScan :=
  let st := lines.foldl buildStep buildScanInit
  if st.inErrorBlock ∧ st.currentError ≠ [] then
    { st with errors := st.errors ++ [st.currentError] }
  else st

/-- The success message of `filterBuildOutput`. -/
def buildOkMsg (n : Nat) : List Char :=
  lc ("[OK] Build successful (") ++ numStr n ++ lc (" units compiled)")

/-- The output formatting of `filterBuildOutput`. -/
def formatBuildResult (st : BuildScan) : List Char :=
  if st.errors = [] ∧ st.warnings = [] then buildOkMsg st.compiled
  else
    let r1 : List (List Char) :=
      if st.errors ≠ [] then
        [lc ("[ERROR] ") ++ numStr st.errors.length ++ lc (" error(s):")] ++
          (st.errors.take 5).foldl
            (fun acc e =>
              acc ++ e.take 10 ++ (if e.length > 10 then [lc ("  ...")] else [])) [] ++
          (if st.errors.length > 5 then
            [lc ("... and ") ++ numStr (st.errors.length - 5) ++ lc (" more errors")]
          else [])
      else []
    let r2 :=
      if st.warnings ≠ [] then
        r1 ++ [lc ("\n[WARN] ") ++ numStr st.warnings.length ++ lc (" warning(s)")]
      else r1
    joinLines r2

/-- `filterBuildOutput` (the `command` parameter is modelled as a string;
the `null`/`undefined` guard of the source collapses into the
`isBuildCommand` test). -/
def filterBuildOutput (output command : List Char) : Option (List Char) :=
  if isBuildCommand command then
    some (formatBuildResult (buildScanLines (splitLines output)))
  else none

/-! ### Test output aggregation (`techniques/test-output.ts`) -/

/-- `TEST_COMMANDS`. -/
def testCommands : List (List Char) :=
  [lc ("test"), lc ("jest"), lc ("vitest"), lc ("pytest"), lc ("cargo test"),
   lc ("bun test"), lc ("go test"), lc ("mocha"), lc ("ava"), lc ("tap")]

/-- Separator class `[\s|;&]` of the whole-token regex of `isTestCommand`. -/
def isSepChar (c : Char) : Bool := jsWs c || c == '|' || c == ';' || c == '&'

/-- `new RegExp("(?:^|[\\s|;&])" + escaped + "(?:[\\s|;&]|$)").test(cmd)`:
`tc` occurs at some position with a separator (or the string edge) on both
sides.  (The escaping of the source makes `tc` a literal.) -/
def isTokenIn (tc cmd : List Char) : Bool :=
  (List.range (cmd.length + 1)).any (fun i =>
    let rest := cmd.drop i
    tc.isPrefixOf rest &&
      (match (cmd.take i).getLast? with
       | none => true
       | some c => isSepChar c) &&
      (match (rest.drop tc.length).head? with
       | none => true
       | some c => isSepChar c))

/-- `isTestCommand`. -/
def isTestCommand (command : List Char) : Bool :=
  if command.isEmpty then false
  else testCommands.any (fun tc => isTokenIn (lowerStr tc) (lowerStr command))

/-- Case-sensitive literal at the head of the input; returns the rest. -/
def eatLit (lit l : List Char) : Option (List Char) :=
  if lit.isPrefixOf l then some (l.drop lit.length) else none

/-- Case-insensitive literal at the head of the input. -/
def eatLitCI (lit l : List Char) : Option (List Char) :=
  if lit.length ≤ l.length ∧ lowerStr (l.take lit.length) = lowerStr lit then
    some (l.drop lit.length)
  else none

/-- A nonempty maximal run of characters satisfying `p` (`\w+`, `\d+`). -/
def eatRun (p : Char → Bool) (l : List Char) : Option (List Char × List Char) :=
  let run := l.takeWhile p
  if run.isEmpty then none else some (run, l.dropWhile p)

/-- `\s+`: at least one whitespace character, consumed maximally. -/
def eatWs1 (l : List Char) : Option (List Char) :=
  match l with
  | c :: _ => if jsWs c then some (l.dropWhile jsWs) else none
  | [] => none

/-- `/test result:\s*(\w+)\.\s*(\d+)\s*passed;\s*(\d+)\s*failed;/` at the head
of the input, returning the three capture groups. -/
def testResultP1At (l : List Char) : Option (List Char × List Char × List Char) := do
  let r ← eatLit (lc ("test result:")) l
  let r := r.dropWhile jsWs
  let (g1, r) ← eatRun isWordChar r
  let r ← eatLit (lc (".")) r
  let r := r.dropWhile jsWs
  let (g2, r) ← eatRun isDigitChar r
  let r := r.dropWhile jsWs
  let r ← eatLit (lc ("passed;")) r
  let r := r.dropWhile jsWs
  let (g3, r) ← eatRun isDigitChar r
  let r := r.dropWhile jsWs
  let _ ← eatLit (lc ("failed;")) r
  pure (g1, g2, g3)

/-- The optional suffix `(?:,\s*(\d+)\s*word)?` of the summary regexes. -/
def optNumWord (word : List Char) (l : List Char) : Option (List Char × List Char) := do
  let r ← eatLit (lc (",")) l
  let r := r.dropWhile jsWs
  let (d, r) ← eatRun isDigitChar r
  let r := r.dropWhile jsWs
  let r ← eatLitCI word r
  pure (d, r)

/-- `/(\d+)\s*wPass(?:,\s*(\d+)\s*wFail)?(?:,\s*(\d+)\s*wSkip)?/i` at the head
of the input. -/
def numPassTailAt (wPass wFail wSkip : List Char) (l : List Char) :
    Option (List Char × Option (List Char) × Option (List Char)) := do
  let (g1, r) ← eatRun isDigitChar l
  let r := r.dropWhile jsWs
  let r ← eatLitCI wPass r
  let (g2, r) :=
    match optNumWord wFail r with
    | some (d, r2) => (some d, r2)
    | none => ((none : Option (List Char)), r)
  let (g3, _) :=
    match optNumWord wSkip r with
    | some (d, r2) => (some d, r2)
    | none => ((none : Option (List Char)), r)
  pure (g1, g2, g3)

/-- `/tests?:\s*(\d+)\s*passed(?:,\s*(\d+)\s*failed)?(?:,\s*(\d+)\s*skipped)?/i`
at the head of the input. -/
def testsColonAt (l : List Char) :
    Option (List Char × Option (List Char) × Option (List Char)) := do
  let r ←
    match eatLitCI (lc ("tests:")) l with
    | some r => some r
    | none => eatLitCI (lc ("test:")) l
  numPassTailAt (lc ("passed")) (lc ("failed")) (lc ("skipped")) (r.dropWhile jsWs)

/-- Regex search without anchors: try `m` at every suffix, leftmost first. -/
def searchFirst (m : List Char → Option α) : List Char → Option α
  | [] => m []
  | c :: rest =>
    match m (c :: rest) with
    | some x => some x
    | none => searchFirst m rest

/-- The extracted summary (`Partial<TestSummary>` collapsed to its effect:
missing fields read as 0 downstream). -/
structure TestStats where
  passed : Nat
  failed : Nat
  skipped : Nat
deriving DecidableEq

/-- Read an optional capture group the way the source does
(`parseInt(match[i], 10) || 0`, with `parseInt(undefined)` being `NaN`). -/
def optParse : Option (List Char) → Nat
  | some d => parseIntOr0 d
  | none => 0

/-- `extractTestStats`: the four `TEST_RESULT_PATTERNS` tried in order against
the whole text; the first match populates passed/failed/skipped from capture
groups 1/2/3. -/
def extractTestStats (output : List Char) : TestStats :=
  match searchFirst testResultP1At output with
  | some (g1, g2, g3) => ⟨parseIntOr0 g1, parseIntOr0 g2, parseIntOr0 g3⟩
  | none =>
    match searchFirst (numPassTailAt (lc ("passed")) (lc ("failed")) (lc ("skipped"))) output with
    | some (g1, g2, g3) => ⟨parseIntOr0 g1, optParse g2, optParse g3⟩
    | none =>
      match searchFirst (numPassTailAt (lc ("pass")) (lc ("fail")) (lc ("skip"))) output with
      | some (g1, g2, g3) => ⟨parseIntOr0 g1, optParse g2, optParse g3⟩
      | none =>
        match searchFirst testsColonAt output with
        | some (g1, g2, g3) => ⟨parseIntOr0 g1, optParse g2, optParse g3⟩
        | none => ⟨0, 0, 0⟩

/-- JS `\b` between two neighbouring characters (`none` = string edge). -/
def isWordO : Option Char → Bool
  | some c => isWordChar c
  | none => false

/-- `line.match(/\b(alt1|alt2|...)\b/)` as a Boolean: some alternative occurs
with a word boundary on each side. -/
def hasWordToken (alts : List (List Char)) (line : List Char) : Bool :=
  (List.range (line.length + 1)).any (fun i =>
    let rest := line.drop i
    alts.any (fun a =>
      a.isPrefixOf rest &&
        (isWordO (line.take i).getLast? != isWordO rest.head?) &&
        (isWordO (rest.take a.length).getLast? != isWordO (rest.drop a.length).head?)))

/-- The alternatives of the fallback pass-marker regex `/\b(ok|PASS|✓|✔)\b/`. -/
def passMarkers : List (List Char) := [lc ("ok"), lc ("PASS"), lc ("✓"), lc ("✔")]

/-- The alternatives of the fallback fail-marker regex `/\b(FAIL|fail|✗|✕)\b/`. -/
def failMarkers : List (List Char) := [lc ("FAIL"), lc ("fail"), lc ("✗"), lc ("✕")]

/-- `/test\s+\w+\s+\.\.\.\s*FAILED/` at the head of the input. -/
def testDotsFailedAt (l : List Char) : Option Unit := do
  let r ← eatLit (lc ("test")) l
  let r ← eatWs1 r
  let (_, r) ← eatRun isWordChar r
  let r ← eatWs1 r
  let r ← eatLit (lc ("...")) r
  let r := r.dropWhile jsWs
  let _ ← eatLit (lc ("FAILED")) r
  pure ()

/-- `/thread\s+'\w+'\s+panicked/` at the head of the input. -/
def threadPanickedAt (l : List Char) : Option Unit := do
  let r ← eatLit (lc ("thread")) l
  let r ← eatWs1 r
  let r ← eatLit [apos] r
  let (_, r) ← eatRun isWordChar r
  let r ← eatLit [apos] r
  let r ← eatWs1 r
  let _ ← eatLit (lc ("panicked")) r
  pure ()

/-- `isFailureStart`: the six `FAILURE_START_PATTERNS`. -/
def isFailureStart (l : List Char) : Bool :=
  headWordWs (lc ("FAIL")) l || headWordWs (lc ("FAILED")) l ||
    headWordWs (lc ("●")) (l.dropWhile jsWs) ||
    headWordWs (lc ("✕")) (l.dropWhile jsWs) ||
    (searchFirst testDotsFailedAt l).isSome ||
    (searchFirst threadPanickedAt l).isSome

/-- Failure-block continuation: a line starting with whitespace or `-`. -/
def isTestContinuation (l : List Char) : Bool :=
  (match l with | c :: _ => jsWs c | [] => false) || (lc ("-")).isPrefixOf l

/-- Scan state of the failure-block loop of `aggregateTestOutput`. -/
structure FailScan where
  failures : List (List Char)
  inFailure : Bool
  currentFailure : List (List Char)
  blankCount : Nat
deriving DecidableEq

/-- One iteration of the failure-block loop. -/
def failStep (st : FailScan) (line : List Char) : FailScan :=
  if isFailureStart line then
    let st1 :=
      if st.inFailure ∧ st.currentFailure ≠ [] then
        { st with failures := st.failures ++ [joinLines st.currentFailure] }
      else st
    { st1 with inFailure := true, currentFailure := [line], blankCount := 0 }
  else if st.inFailure then
    if trimStr line = [] then
      if st.blankCount + 1 ≥ 2 ∧ st.currentFailure.length > 3 then
        { st with failures := st.failures ++ [joinLines st.currentFailure],
                  inFailure := false, currentFailure := [],
                  blankCount := st.blankCount + 1 }
      else { st with currentFailure := st.currentFailure ++ [line],
                     blankCount := st.blankCount + 1 }
    else if isTestContinuation line then
      { st with currentFailure := st.currentFailure ++ [line], blankCount := 0 }
    else
      { st with failures := st.failures ++ [joinLines st.currentFailure],
                inFailure := false, currentFailure := [] }
  else st

/-- The failure-block scanner of `aggregateTestOutput`, including the final
flush of a still-open block. -/
def testFailureBlocks (lines : List (List Char)) : List (List Char) :=
  let st := lines.foldl failStep ⟨[], false, [], 0⟩
  if st.inFailure ∧ st.currentFailure ≠ [] then
    st.failures ++ [joinLines st.currentFailure]
  else st.failures

/-- Formatting of one captured failure in the report. -/
def formatFailure (f : List Char) : List (List Char) :=
  let ls := splitLines f
  let first := ls.headD []
  [lc ("   - ") ++ first.take 70 ++ (if first.length > 70 then lc ("...") else [])] ++
    (((ls.drop 1).take 3).filter (fun l => !(trimStr l).isEmpty)).map
      (fun l => lc ("     ") ++ l.take 65 ++ (if l.length > 65 then lc ("...") else [])) ++
    (if ls.length > 4 then
      [lc ("     ... (") ++ numStr (ls.length - 4) ++ lc (" more lines)")]
    else [])

/-- `aggregateTestOutput`. -/
def aggregateTestOutput (output command : List Char) : Option (List Char) :=
  if ¬ isTestCommand command then none
  else
    let lines := splitLines output
    let s0 := extractTestStats output
    let s1 :=
      if s0.passed = 0 ∧ s0.failed = 0 then
        { s0 with passed := lines.countP (fun l => hasWordToken passMarkers l),
                  failed := lines.countP (fun l => hasWordToken failMarkers l) }
      else s0
    let failures := if s1.failed > 0 then testFailureBlocks lines else []
    let res1 : List (List Char) :=
      [lc ("Test Results:"), lc ("   PASS: ") ++ numStr s1.passed ++ lc (" passed")] ++
        (if s1.failed > 0 then [lc ("   FAIL: ") ++ numStr s1.failed ++ lc (" failed")] else []) ++
        (if s1.skipped > 0 then [lc ("   SKIP: ") ++ numStr s1.skipped ++ lc (" skipped")] else [])
    let res2 :=
      if s1.failed > 0 ∧ failures ≠ [] then
        res1 ++ [lc ("\n   Failures:")] ++
          ((failures.take 5).map formatFailure).flatten ++
          (if failures.length > 5 then
            [lc ("   ... and ") ++ numStr (failures.length - 5) ++ lc (" more failures")]
          else [])
      else res1
    some (joinLines res2)

/-! ### Search result grouping and the shared path compactor
(`techniques/search.ts`; `compactPath` is duplicated verbatim in
`techniques/linter.ts`) -/

/-- `compactPath(path, maxLength)`. -/
def compactPath (path : List Char) (maxLength : Nat) : List Char :=
  if path.length ≤ maxLength then path
  else
    let parts := splitOnChar '/' path
    if parts.length ≤ 3 then path
    else
      parts.headD [] ++ lc ("/.../") ++ parts.getD (parts.length - 2) [] ++
        lc ("/") ++ parts.getD (parts.length - 1) []

/-- A parsed search hit (`SearchResult`). -/
structure SearchResult where
  file : List Char
  lineNumber : List Char
  content : List Char
deriving DecidableEq

/-- `/^(.+?):(\d+)?:(.+)$/` scanned lazily: `fileRev` holds the (reversed)
candidate for the lazy `(.+?)` group; at the first colon where the remainder
parses as optional digits, a colon and nonempty content, the match succeeds
(`match[2] || "?"` is applied to the digit group). -/
def parseSearchGo (fileRev : List Char) : List Char → Option SearchResult
  | [] => none
  | c :: rest =>
    if c = ':' ∧ fileRev ≠ [] then
      let ds := rest.takeWhile isDigitChar
      match rest.drop ds.length with
      | ':' :: content =>
        if content ≠ [] then
          some ⟨fileRev.reverse, if ds.isEmpty then lc ("?") else ds, content⟩
        else parseSearchGo (c :: fileRev) rest
      | _ => parseSearchGo (c :: fileRev) rest
    else parseSearchGo (c :: fileRev) rest

/-- One line of `groupSearchResults`' parse loop. -/
def parseSearchLine (l : List Char) : Option SearchResult := parseSearchGo [] l

/-- The parse loop: blank lines are skipped, non-matching lines dropped. -/
def collectSearchResults (lines : List (List Char)) : List SearchResult :=
  lines.filterMap (fun l => if trimStr l = [] then none else parseSearchLine l)

/-- The `Map`-based grouping (JS `Map` preserves first-insertion order of
keys and appends within a key). -/
def groupByFile (rs : List SearchResult) : List (List Char × List SearchResult) :=
  rs.foldl (fun acc r =>
    if acc.any (fun p => decide (p.1 = r.file)) then
      acc.map (fun p => if p.1 = r.file then (p.1, p.2 ++ [r]) else p)
    else acc ++ [(r.file, [r])]) []

/-- Lexicographic comparison of paths by character code (model of
`a[0].localeCompare(b[0]) <= 0`; the two agree on the ASCII paths the
scanner meets). -/
def lexLe : List Char → List Char → Bool
  | [], _ => true
  | _ :: _, [] => false
  | x :: xs, y :: ys => if x = y then lexLe xs ys else decide (x < y)

/-- Insertion into a list sorted by `lexLe` on the key. -/
def insertFilePair (p : List Char × List SearchResult) :
    List (List Char × List SearchResult) → List (List Char × List SearchResult)
  | [] => [p]
  | q :: qs => if lexLe p.1 q.1 then p :: q :: qs else q :: insertFilePair p qs

/-- `Array.from(byFile.entries()).sort(...)` (keys are distinct, so stability
is irrelevant). -/
def sortFilePairs (ps : List (List Char × List SearchResult)) :
    List (List Char × List SearchResult) :=
  ps.foldr insertFilePair []

/-- `groupSearchResults(output, maxResults = 50)`. -/
def groupSearchResults (output : List Char) (maxResults : Nat) : Option (List Char) :=
  let results := collectSearchResults (splitLines output)
  if results = [] then none
  else
    let byFile := groupByFile results
    let files := sortFilePairs byFile
    let init : List Char :=
      numStr results.length ++ lc (" matches in ") ++ numStr byFile.length ++
        lc (" files:\n\n")
    let step := fun (acc : List Char × Nat) (fp : List Char × List SearchResult) =>
      if acc.2 ≥ maxResults then acc
      else
        let header := lc ("> ") ++ compactPath fp.1 50 ++ lc (" (") ++
          numStr fp.2.length ++ lc (" matches):\n")
        let body := (fp.2.take 10).foldl
          (fun (b : List Char × Nat) m =>
            let cleaned0 := trimStr m.content
            let cleaned :=
              if cleaned0.length > 70 then cleaned0.take 67 ++ lc ("...") else cleaned0
            (b.1 ++ lc ("    ") ++ m.lineNumber ++ lc (": ") ++ cleaned ++ lc ("\n"),
             b.2 + 1))
          (([] : List Char), acc.2)
        let extra :=
          if fp.2.length > 10 then
            lc ("  +") ++ numStr (fp.2.length - 10) ++ lc (" more\n")
          else []
        (acc.1 ++ header ++ body.1 ++ extra ++ lc ("\n"), body.2)
    let scanned := files.foldl step (init, 0)
    some (if results.length > scanned.2 then
      scanned.1 ++ lc ("... +") ++ numStr (results.length - scanned.2) ++ lc (" more\n")
    else scanned.1)

/-! ### Source filter and smart truncator (`techniques/source.ts`) -/

/-- The `Language` union. -/
inductive Language where
  | typescript | javascript | python | rust | go | java | c | cpp | unknown
deriving DecidableEq

/-- The `CommentPatterns` record. -/
structure CommentPatterns where
  line : Option (List Char)
  blockStart : Option (List Char)
  blockEnd : Option (List Char)
  docComment : Option (List Char)

/-- `COMMENT_PATTERNS`. -/
def commentPatterns : Language → CommentPatterns
  | .typescript => ⟨some (lc ("//")), some (lc ("/*")), some (lc ("*/")), some (lc ("/**"))⟩
  | .javascript => ⟨some (lc ("//")), some (lc ("/*")), some (lc ("*/")), some (lc ("/**"))⟩
  | .python => ⟨some (lc ("#")), none, none, some (lc ("\"\"\""))⟩
  | .rust => ⟨some (lc ("//")), some (lc ("/*")), some (lc ("*/")), some (lc ("///"))⟩
  | .go => ⟨some (lc ("//")), some (lc ("/*")), some (lc ("*/")), some (lc ("//"))⟩
  | .java => ⟨some (lc ("//")), some (lc ("/*")), some (lc ("*/")), some (lc ("/**"))⟩
  | .c => ⟨some (lc ("//")), some (lc ("/*")), some (lc ("*/")), some (lc ("/*"))⟩
  | .cpp => ⟨some (lc ("//")), some (lc ("/*")), some (lc ("*/")), some (lc ("/*"))⟩
  | .unknown => ⟨none, none, none, none⟩

/-- Scan state of `filterMinimal`'s loop. -/
structure MinState where
  inBlockComment : Bool
  inDocstring : Bool
  result : List (List Char)

/-- One iteration of `filterMinimal`'s loop. -/
def minStep (language : Language) (pats : CommentPatterns) (st : MinState)
    (line : List Char) : MinState :=
  let trimmed := trimStr line
  let docStart :=
    match pats.docComment with
    | some dc => dc.isPrefixOf trimmed
    | none => false
  let pythonDoc : Option MinState :=
    if language = Language.python then
      match pats.docComment with
      | some dc =>
        if dc.isPrefixOf trimmed then
          some { st with inDocstring := !st.inDocstring, result := st.result ++ [line] }
        else if st.inDocstring then some { st with result := st.result ++ [line] }
        else none
      | none => none
    else none
  match pythonDoc with
  | some st' => st'
  | none =>
    let startsBlock :=
      match pats.blockStart with
      | some bs => bs.isPrefixOf trimmed
      | none => false
    if startsBlock && docStart then { st with result := st.result ++ [line] }
    else if st.inBlockComment || startsBlock then
      let ends :=
        match pats.blockEnd with
        | some be => be.isSuffixOf trimmed
        | none => false
      { st with inBlockComment := !ends }
    else
      match pats.line with
      | some lm =>
        match indexOfSub lm line with
        | some idx =>
          if docStart = true then { st with result := st.result ++ [line] }
          else { st with result := st.result ++ [line.take idx] }
        | none => { st with result := st.result ++ [line] }
      | none => { st with result := st.result ++ [line] }

/-- Emission of a run of pending newlines under `.replace(/\n{3,}/g, "\n\n")`. -/
def emitNl (n : Nat) : List Char :=
  if n ≥ 3 then ['\n', '\n'] else List.replicate n '\n'

/-- `.replace(/\n{3,}/g, "\n\n")`: collapse every maximal run of three or more
newlines to exactly two. -/
def collapseGo : List Char → Nat → List Char
  | [], pending => emitNl pending
  | c :: rest, pending =>
    if c = '\n' then collapseGo rest (pending + 1)
    else emitNl pending ++ c :: collapseGo rest 0

/-- The blank-line normalisation of `filterMinimal`. -/
def collapseNl (l : List Char) : List Char := collapseGo l 0

/-- `filterMinimal(content, language)`. -/
def filterMinimal (content : List Char) (language : Language) : List Char :=
  if language = Language.unknown then content
  else
    let pats := commentPatterns language
    let st := (splitLines content).foldl (minStep language pats) ⟨false, false, []⟩
    trimStr (collapseNl (joinLines st.result))

/-- `/^(use\s+|import\s+|from\s+|require\(|#include)/` on the trimmed line. -/
def importPattern (t : List Char) : Bool :=
  headWordWs (lc ("use")) t || headWordWs (lc ("import")) t ||
    headWordWs (lc ("from")) t || (lc ("require(")).isPrefixOf t ||
    (lc ("#include")).isPrefixOf t

/-- The declaration keywords of the signature regex. -/
def sigKeywords : List (List Char) :=
  [lc ("fn"), lc ("def"), lc ("function"), lc ("func"), lc ("class"), lc ("struct"),
   lc ("enum"), lc ("trait"), lc ("interface"), lc ("type")]

/-- `(fn|def|...|type)\s+\w+` at the head of the input. -/
def kwThenWord (t : List Char) : Bool :=
  sigKeywords.any (fun kw =>
    kw.isPrefixOf t &&
      match t.drop kw.length with
      | c :: rest =>
        jsWs c &&
          (match (c :: rest).dropWhile jsWs with
           | d :: _ => isWordChar d
           | [] => false)
      | [] => false)

/-- `tok\s+` at the head of the input; returns the rest after the whitespace. -/
def matchTokWs (tok : List Char) (t : List Char) : Option (List Char) :=
  if tok.isPrefixOf t then
    match t.drop tok.length with
    | c :: rest => if jsWs c then some ((c :: rest).dropWhile jsWs) else none
    | [] => none
  else none

/-- `/^(pub\s+)?(async\s+)?(fn|def|...|type)\s+\w+/` on the trimmed line. -/
def signaturePattern (t : List Char) : Bool :=
  kwThenWord t ||
    (match matchTokWs (lc ("pub")) t with
     | some r =>
       kwThenWord r ||
         (match matchTokWs (lc ("async")) r with
          | some r2 => kwThenWord r2
          | none => false)
     | none => false) ||
    (match matchTokWs (lc ("async")) t with
     | some r => kwThenWord r
     | none => false)

/-- `/^(const|static|let|pub\s+const|pub\s+static)\s+/` on the trimmed line. -/
def constPattern (t : List Char) : Bool :=
  (matchTokWs (lc ("const")) t).isSome || (matchTokWs (lc ("static")) t).isSome ||
    (matchTokWs (lc ("let")) t).isSome ||
    (match matchTokWs (lc ("pub")) t with
     | some r => (matchTokWs (lc ("const")) r).isSome || (matchTokWs (lc ("static")) r).isSome
     | none => false)

/-- Number of occurrences of a character. -/
def countChar (c : Char) (l : List Char) : Nat := l.countP (fun x => x == c)

/-- Scan state of `filterAggressive`'s loop.  `braceDepth` is an integer as in
the source (it may go negative on unbalanced input). -/
structure AggState where
  result : List (List Char)
  braceDepth : Int
  inImplementation : Bool

/-- One iteration of `filterAggressive`'s loop. -/
def aggStep (st : AggState) (line : List Char) : AggState :=
  let trimmed := trimStr line
  if importPattern trimmed then { st with result := st.result ++ [line] }
  else if signaturePattern trimmed then
    { st with result := st.result ++ [line], inImplementation := true, braceDepth := 0 }
  else if st.inImplementation then
    let depth := st.braceDepth + (countChar '\x7b' trimmed : Int) -
      (countChar '\x7d' trimmed : Int)
    let keep := depth ≤ 1 ∧
      (trimmed = ['\x7b'] ∨ trimmed = ['\x7d'] ∨ trimmed.getLast? = some '\x7b')
    let res1 := if keep then st.result ++ [line] else st.result
    if depth ≤ 0 then
      { result :=
          if trimmed ≠ [] ∧ trimmed ≠ ['\x7d'] then
            res1 ++ [lc ("    // ... implementation")]
          else res1,
        braceDepth := depth, inImplementation := false }
    else { result := res1, braceDepth := depth, inImplementation := true }
  else if constPattern trimmed then { st with result := st.result ++ [line] }
  else st

/-- `filterAggressive(content, language)`. -/
def filterAggressive (content : List Char) (language : Language) : List Char :=
  if language = Language.unknown then filterMinimal content language
  else
    trimStr (joinLines
      ((splitLines (filterMinimal content language)).foldl aggStep ⟨[], 0, false⟩).result)

/-- The "important line" regex of `smartTruncate` (bare literal prefixes on the
trimmed line, except `pub` which requires a following whitespace). -/
def importantPattern (t : List Char) : Bool :=
  ([lc ("import"), lc ("use"), lc ("from"), lc ("require"), lc ("#include"),
    lc ("fn"), lc ("def"), lc ("function"), lc ("func"), lc ("class"),
    lc ("struct"), lc ("enum"), lc ("trait"), lc ("interface"), lc ("type"),
    lc ("const"), lc ("static"), lc ("let")].any (fun w => w.isPrefixOf t)) ||
    ((lc ("pub")).isPrefixOf t &&
      match t.drop 3 with
      | c :: _ => jsWs c
      | [] => false)

/-- Scan state of `smartTruncate`'s loop. -/
structure TruncState where
  result : List (List Char)
  keptLines : Nat
  skippedSection : Bool

/-- One iteration of `smartTruncate`'s loop body (before the break test).
`2 * keptLines < maxLines` encodes the JS float comparison
`keptLines < maxLines / 2` on integers; the omitted count is computed in `Int`
as JS numbers can go negative there. -/
def truncStep (total maxLines : Nat) (st : TruncState) (line : List Char) : TruncState :=
  if importantPattern (trimStr line) ∨ 2 * st.keptLines < maxLines then
    let res1 :=
      if st.skippedSection then
        st.result ++ [lc ("    // ... ") ++
          intStr ((total : Int) - (st.result.length : Int) - (st.keptLines : Int)) ++
          lc (" lines omitted")]
      else st.result
    { result := res1 ++ [line], keptLines := st.keptLines + 1, skippedSection := false }
  else { st with skippedSection := true }

/-- `smartTruncate`'s loop with its `break` (`keptLines >= maxLines - 1`,
which for `maxLines = 0` is true after the first iteration, as in JS where
the bound is `-1`). -/
def truncGo (total maxLines : Nat) : List (List Char) → TruncState → TruncState
  | [], st => st
  | l :: rest, st =>
    let st' := truncStep total maxLines st l
    if maxLines - 1 ≤ st'.keptLines then st'
    else truncGo total maxLines rest st'

/-- The final result-line list of `smartTruncate`'s truncating branch: the
loop's kept lines and markers, plus the trailing summary line when anything
was skipped or omitted. -/
def truncFinal (lines : List (List Char)) (maxLines : Nat) : List (List Char) :=
  if (truncGo lines.length maxLines lines ⟨[], 0, false⟩).skippedSection = true ∨
      (truncGo lines.length maxLines lines ⟨[], 0, false⟩).keptLines < lines.length then
    (truncGo lines.length maxLines lines ⟨[], 0, false⟩).result ++
      [lc ("// ... ") ++
        numStr (lines.length - (truncGo lines.length maxLines lines ⟨[], 0, false⟩).keptLines) ++
        lc (" more lines (total: ") ++ numStr lines.length ++ lc (")")]
  else (truncGo lines.length maxLines lines ⟨[], 0, false⟩).result

/-- `smartTruncate(content, maxLines, language)` (the `language` parameter is
unused by the source as well). -/
def smartTruncate (content : List Char) (maxLines : Nat) (_language : Language) :
    List Char :=
  if (splitLines content).length ≤ maxLines then content
  else joinLines (truncFinal (splitLines content) maxLines)

/-- The `FilterLevel` union. -/
inductive FilterLevel where
  | none | minimal | aggressive
deriving DecidableEq

/-- `filterSourceCode`. -/
def filterSourceCode (content : List Char) (language : Language) :
    FilterLevel → List Char
  | .none => content
  | .minimal => filterMinimal content language
  | .aggressive => filterAggressive content language

/-- Whether a text contains three consecutive newlines (the shape the
blank-line normalisation of `filterMinimal` eliminates). -/
def hasTripleNl : List Char → Bool
  | [] => false
  | c :: rest => (c == '\n' && (rest.take 2 == ['\n', '\n'])) || hasTripleNl rest

/-- A concrete 500-line source file used to analyse `smartTruncate`: 100
declaration lines, a dropped line, 98 declarations, a dropped line, one more
declaration, then 299 further lines that the budget never reaches. -/
def c3Input : List Char :=
  joinLines (List.replicate 100 (lc ("fn a")) ++ [lc ("x")] ++
    List.replicate 98 (lc ("fn a")) ++ [lc ("x"), lc ("fn a")] ++
    List.replicate 299 (lc ("x")))

/-! ## General lemmas about the string model -/

theorem dropWhile_dropWhile (p : Char → Bool) (l : List Char) :
    (l.dropWhile p).dropWhile p = l.dropWhile p := by
  induction l with
  | nil => rfl
  | cons c rest ih =>
    by_cases h : p c
    · simp [List.dropWhile_cons, h, ih]
    · simp [List.dropWhile_cons, h]

theorem dropWhile_head_false (p : Char → Bool) (l : List Char) (c : Char) (t : List Char)
    (h : l.dropWhile p = c :: t) : p c = false := by
  induction l with
  | nil => simp [List.dropWhile] at h
  | cons a rest ih =>
    rw [List.dropWhile_cons] at h
    by_cases hp : p a
    · rw [if_pos hp] at h; exact ih h
    · rw [if_neg hp] at h
      cases h
      simpa using hp

/-- The tail-trimming pass of `trimStr` only removes a suffix. -/
theorem dropTrailing_front (y : List Char) :
    (y.reverse.dropWhile jsWs).reverse <+: y := by
  have h : ((y.reverse.dropWhile jsWs).reverse).reverse <:+ y.reverse := by
    rw [List.reverse_reverse]
    exact List.dropWhile_suffix jsWs
  exact List.reverse_suffix.mp h

theorem trimStr_front (l : List Char) : trimStr l <+: l.dropWhile jsWs :=
  dropTrailing_front (l.dropWhile jsWs)

theorem trimStr_within (l : List Char) : trimStr l <:+: l :=
  (trimStr_front l).isInfix.trans (List.dropWhile_suffix jsWs).isInfix

theorem trimStr_idem (l : List Char) : trimStr (trimStr l) = trimStr l := by
  have hA : (trimStr l).dropWhile jsWs = trimStr l := by
    rcases he : trimStr l with _ | ⟨c, t⟩
    · rfl
    · have hpre : trimStr l <+: l.dropWhile jsWs := trimStr_front l
      rw [he] at hpre
      rcases hpre with ⟨rest, hrest⟩
      have hc : jsWs c = false := dropWhile_head_false jsWs l c (t ++ rest) (by
        rw [← hrest]; simp)
      rw [List.dropWhile_cons, if_neg (by simp [hc])]
  show ((((trimStr l).dropWhile jsWs).reverse.dropWhile jsWs)).reverse = trimStr l
  rw [hA]
  show (((((l.dropWhile jsWs).reverse.dropWhile jsWs)).reverse).reverse.dropWhile jsWs).reverse =
    trimStr l
  rw [List.reverse_reverse, dropWhile_dropWhile]
  rfl

theorem allWs_of_trim_eq_nil (l : List Char) (h : trimStr l = []) :
    ∀ c ∈ l, jsWs c = true := by
  have h1 : (l.dropWhile jsWs).reverse.dropWhile jsWs = [] := by
    have := congrArg List.reverse h
    rwa [trimStr, List.reverse_reverse, List.reverse_nil] at this
  have h2 : ∀ c ∈ l.dropWhile jsWs, jsWs c = true := by
    intro c hc
    exact List.dropWhile_eq_nil_iff.mp h1 c (List.mem_reverse.mpr hc)
  intro c hc
  rw [← List.takeWhile_append_dropWhile (p := jsWs) (l := l)] at hc
  rcases List.mem_append.mp hc with h3 | h3
  · exact List.mem_takeWhile_imp h3
  · exact h2 c h3

/-! ## Lemmas about line splitting and joining -/

theorem splitOnChar_ne_nil (sep : Char) (l : List Char) : splitOnChar sep l ≠ [] := by
  induction l with
  | nil => simp [splitOnChar]
  | cons c rest ih =>
    rw [splitOnChar]
    by_cases h : c = sep
    · simp [h]
    · rw [if_neg h]
      rcases hs : splitOnChar sep rest with _ | ⟨p, t⟩
      · simp
      · simp

theorem mem_splitOnChar_not_sep (sep : Char) (l : List Char) :
    ∀ p ∈ splitOnChar sep l, sep ∉ p := by
  induction l with
  | nil => intro p hp; simp [splitOnChar] at hp; simp [hp]
  | cons c rest ih =>
    intro p hp
    rw [splitOnChar] at hp
    by_cases h : c = sep
    · rw [if_pos h] at hp
      rcases List.mem_cons.mp hp with h1 | h1
      · simp [h1]
      · exact ih p h1
    · rw [if_neg h] at hp
      rcases hs : splitOnChar sep rest with _ | ⟨q, t⟩
      · exact absurd hs (splitOnChar_ne_nil sep rest)
      · rw [hs] at hp
        rcases List.mem_cons.mp hp with h1 | h1
        · subst h1
          intro hmem
          rcases List.mem_cons.mp hmem with h2 | h2
          · exact h h2.symm
          · exact ih q (by rw [hs]; exact List.mem_cons_self q t) h2
        · exact ih p (by rw [hs]; exact List.mem_cons_of_mem q h1)

theorem splitOnChar_no_sep (sep : Char) (p : List Char) (h : sep ∉ p) :
    splitOnChar sep p = [p] := by
  induction p with
  | nil => rfl
  | cons c rest ih =>
    rw [splitOnChar, if_neg (fun hc => h (by simp [hc]))]
    rw [ih (fun hc => h (List.mem_cons_of_mem c hc))]

theorem splitOnChar_append_sep (sep : Char) (p t : List Char) (h : sep ∉ p) :
    splitOnChar sep (p ++ sep :: t) = p :: splitOnChar sep t := by
  induction p with
  | nil => simp [splitOnChar]
  | cons c rest ih =>
    have hc : c ≠ sep := fun hc => h (by simp [hc])
    rw [List.cons_append, splitOnChar, if_neg hc,
      ih (fun hm => h (List.mem_cons_of_mem c hm))]

theorem splitLines_joinLines (ls : List (List Char)) (hne : ls ≠ [])
    (h : ∀ p ∈ ls, '\n' ∉ p) : splitLines (joinLines ls) = ls := by
  induction ls with
  | nil => exact absurd rfl hne
  | cons p rest ih =>
    cases rest with
    | nil =>
      show splitOnChar '\n' (joinLines [p]) = [p]
      rw [joinLines]
      exact splitOnChar_no_sep '\n' p (h p (List.mem_cons_self p []))
    | cons q rest2 =>
      show splitOnChar '\n' (joinLines (p :: q :: rest2)) = p :: q :: rest2
      rw [joinLines, splitOnChar_append_sep '\n' p _ (h p (List.mem_cons_self _ _))]
      have := ih (List.cons_ne_nil q rest2) (fun x hx => h x (List.mem_cons_of_mem p hx))
      rw [show splitLines (joinLines (q :: rest2)) =
        splitOnChar '\n' (joinLines (q :: rest2)) from rfl] at this
      rw [this]
      exact List.cons_ne_nil q rest2

theorem countLines_joinLines (ls : List (List Char)) (hne : ls ≠ [])
    (h : ∀ p ∈ ls, '\n' ∉ p) : countLines (joinLines ls) = ls.length := by
  show (splitLines (joinLines ls)).length = ls.length
  rw [splitLines_joinLines ls hne h]

/-! ## Digits contain no newline -/

theorem digitChar_ne_nl (k : Nat) (h : k < 10) : digitChar k ≠ '\n' := by
  interval_cases k <;> decide

theorem digitChar_ne_nl' (k : Nat) : digitChar (k % 10) ≠ '\n' :=
  digitChar_ne_nl (k % 10) (Nat.mod_lt k (by omega))

theorem toDigitsGo_ne_nl (fuel : Nat) :
    ∀ (n : Nat) (acc : List Char), (∀ c ∈ acc, c ≠ '\n') →
      ∀ c ∈ toDigitsGo fuel n acc, c ≠ '\n' := by
  induction fuel with
  | zero =>
    intro n acc hacc c hc
    rw [toDigitsGo] at hc
    exact hacc c hc
  | succ f ih =>
    intro n acc hacc c hc
    rw [toDigitsGo] at hc
    by_cases h : n < 10
    · rw [if_pos h] at hc
      rcases List.mem_cons.mp hc with h1 | h1
      · subst h1; exact digitChar_ne_nl n h
      · exact hacc c h1
    · rw [if_neg h] at hc
      refine ih (n / 10) (digitChar (n % 10) :: acc) ?_ c hc
      intro x hx
      rcases List.mem_cons.mp hx with h1 | h1
      · subst h1; exact digitChar_ne_nl' n
      · exact hacc x h1

theorem numStr_ne_nl (n : Nat) : '\n' ∉ numStr n := by
  intro hmem
  exact toDigitsGo_ne_nl (n + 1) n [] (by intro c hc; cases hc) '\n' hmem rfl

theorem intStr_ne_nl (n : Int) : '\n' ∉ intStr n := by
  unfold intStr
  by_cases h : n < 0
  · rw [if_pos h]
    intro hmem
    rcases List.mem_cons.mp hmem with h1 | h1
    · exact absurd h1.symm (by decide)
    · exact numStr_ne_nl _ h1
  · rw [if_neg h]
    exact numStr_ne_nl _

/-! ## C4: the ANSI stripper -/

theorem csiMatch_ne_esc (c : Char) (l : List Char) (h : c ≠ escChar) :
    csiMatch (c :: l) = none := by
  cases l with
  | nil => rfl
  | cons b r => simp [csiMatch, h]

theorem osc1Match_ne_esc (c : Char) (l : List Char) (h : c ≠ escChar) :
    osc1Match (c :: l) = none := by
  cases l with
  | nil => rfl
  | cons b r => simp [osc1Match, h]

theorem osc2Match_ne_esc (c : Char) (l : List Char) (h : c ≠ escChar) :
    osc2Match (c :: l) = none := by
  cases l with
  | nil => rfl
  | cons b r => simp [osc2Match, h]

theorem replGo_no_esc (m : List Char → Option (List Char))
    (hm : ∀ c l, c ≠ escChar → m (c :: l) = none) :
    ∀ (fuel : Nat) (l : List Char), (∀ c ∈ l, c ≠ escChar) → replGo m fuel l = l := by
  intro fuel
  induction fuel with
  | zero => intro l _; rfl
  | succ f ih =>
    intro l hl
    cases l with
    | nil => rfl
    | cons c rest =>
      rw [replGo, hm c rest (hl c (List.mem_cons_self c rest))]
      rw [ih rest (fun x hx => hl x (List.mem_cons_of_mem c hx))]

theorem stripAnsi_no_esc (l : List Char) (h : ∀ c ∈ l, c ≠ escChar) :
    stripAnsi l = l := by
  unfold stripAnsi replAll
  rw [replGo_no_esc csiMatch csiMatch_ne_esc _ l h,
    replGo_no_esc osc1Match osc1Match_ne_esc _ l h,
    replGo_no_esc osc2Match osc2Match_ne_esc _ l h]

/-- C4 (amended): `stripAnsi` is idempotent on every input whose stripped form
contains no escape byte; it is not idempotent in general, because removing a
CSI sequence can splice a preceding escape byte onto following text, forming a
new escape sequence (see the counterexample). -/
theorem c4_strip_idempotent_of_escape_free (x : List Char)
    (h : ∀ c ∈ stripAnsi x, c ≠ escChar) :
    stripAnsi (stripAnsi x) = stripAnsi x :=
  stripAnsi_no_esc (stripAnsi x) h

/-- C4 witness: a concrete input whose stripped form is escape-free. -/
theorem c4_witness :
    (∀ c ∈ stripAnsi (lc ("a\x1b[0mb")), c ≠ escChar) ∧
      stripAnsi (stripAnsi (lc ("a\x1b[0mb"))) = stripAnsi (lc ("a\x1b[0mb")) :=
  ⟨by decide, c4_strip_idempotent_of_escape_free (lc ("a\x1b[0mb")) (by decide)⟩

/-- C4 counterexample: stripping `ESC ESC [1m [0m` once yields `ESC [0m`
(the removal of `ESC [1m` splices the leading `ESC` onto `[0m`), and stripping
a second time deletes the rest, so double stripping differs from single
stripping. -/
theorem c4_counterexample :
    stripAnsi (stripAnsi (lc ("\x1b\x1b[1m[0m"))) ≠ stripAnsi (lc ("\x1b\x1b[1m[0m")) := by
  decide

/-! ## C6: the shared path compactor -/

/-- C6 (amended): `compactPath` returns the path unchanged whenever its length
is at most `maxLength`; when the length exceeds `maxLength` and splitting on
`/` yields at least 4 parts, it returns `parts[0] ++ "/.../" ++ parts[n-2] ++
"/" ++ parts[n-1]` — for an absolute path `parts[0]` is the empty segment
before the leading slash.  In particular `/a/b/c/d/e/file.ts` (length 18) is
returned unchanged at `maxLength` 50, not compacted to `a/.../d/file.ts`. -/
theorem c6_compactPath_spec (p : List Char) (m : Nat) :
    (p.length ≤ m → compactPath p m = p) ∧
      (m < p.length → 4 ≤ (splitOnChar '/' p).length →
        compactPath p m =
          (splitOnChar '/' p).headD [] ++ lc ("/.../") ++
            (splitOnChar '/' p).getD ((splitOnChar '/' p).length - 2) [] ++
            lc ("/") ++ (splitOnChar '/' p).getD ((splitOnChar '/' p).length - 1) []) := by
  constructor
  · intro h
    unfold compactPath
    rw [if_pos h]
  · intro h1 h2
    unfold compactPath
    rw [if_neg (by omega)]
    rw [if_neg (by omega)]

/-- C6 counterexample: the spec's example path is short, so it is returned
unchanged rather than compacted. -/
theorem c6_counterexample :
    compactPath (lc ("/a/b/c/d/e/file.ts")) 50 = lc ("/a/b/c/d/e/file.ts") ∧
      compactPath (lc ("/a/b/c/d/e/file.ts")) 50 ≠ lc ("a/.../d/file.ts") := by
  decide

/-- C6 witness: a path longer than 50 characters is compacted, keeping the
(empty) leading segment, the second-to-last and the last `/`-separated parts. -/
theorem c6_witness :
    50 < (lc ("/verylongdirectoryname1/verylongdirectoryname2/c/d/e/file.ts")).length ∧
      4 ≤ (splitOnChar '/' (lc ("/verylongdirectoryname1/verylongdirectoryname2/c/d/e/file.ts"))).length ∧
      compactPath (lc ("/verylongdirectoryname1/verylongdirectoryname2/c/d/e/file.ts")) 50 =
        lc ("/.../e/file.ts") := by
  refine ⟨by decide, by decide, ?_⟩
  rw [(c6_compactPath_spec (lc ("/verylongdirectoryname1/verylongdirectoryname2/c/d/e/file.ts")) 50).2
    (by decide) (by decide)]
  decide

/-! ## C5: blank-line normalisation of the minimal source filter -/

theorem hasTripleNl_iff_within (l : List Char) :
    hasTripleNl l = true ↔ ['\n', '\n', '\n'] <:+: l := by
  induction l with
  | nil =>
    simp [hasTripleNl]
  | cons c rest ih =>
    rw [hasTripleNl, List.infix_cons_iff]
    constructor
    · intro h
      rcases Bool.or_eq_true_iff.mp h with h1 | h1
      · obtain ⟨hc, ht⟩ := Bool.and_eq_true_iff.mp h1
        left
        rw [List.cons_prefix_cons]
        refine ⟨(beq_iff_eq.mp hc).symm, ?_⟩
        rw [List.prefix_iff_eq_take]
        exact (beq_iff_eq.mp ht).symm
      · right; exact ih.mp h1
    · intro h
      rcases h with h1 | h1
      · rw [List.cons_prefix_cons] at h1
        apply Bool.or_eq_true_iff.mpr
        left
        apply Bool.and_eq_true_iff.mpr
        refine ⟨beq_iff_eq.mpr h1.1.symm, ?_⟩
        have := List.prefix_iff_eq_take.mp h1.2
        exact beq_iff_eq.mpr this.symm
      · exact Bool.or_eq_true_iff.mpr (Or.inr (ih.mpr h1))

theorem hasTripleNl_false_of_within (l₁ l₂ : List Char) (h : l₁ <:+: l₂)
    (h2 : hasTripleNl l₂ = false) : hasTripleNl l₁ = false := by
  by_contra hc
  have h1 : hasTripleNl l₁ = true := by
    cases hx : hasTripleNl l₁
    · exact absurd hx hc
    · rfl
  have := (hasTripleNl_iff_within l₂).mpr (((hasTripleNl_iff_within l₁).mp h1).trans h)
  rw [this] at h2
  cases h2

theorem hasTripleNl_cons_ne (c : Char) (t : List Char) (h : c ≠ '\n') :
    hasTripleNl (c :: t) = hasTripleNl t := by
  rw [hasTripleNl]
  simp [h]

theorem hasTripleNl_nl_cons_ne (c : Char) (t : List Char) (h : c ≠ '\n') :
    hasTripleNl ('\n' :: c :: t) = hasTripleNl (c :: t) := by
  have hfalse : (List.take 2 (c :: t) == ['\n', '\n']) = false := by
    rw [beq_eq_false_iff_ne]
    intro hcc
    have h2 : c :: List.take 1 t = ['\n', '\n'] := by simpa using hcc
    exact h (List.cons_eq_cons.mp h2).1
  rw [hasTripleNl, hfalse, Bool.and_false, Bool.false_or]

theorem collapseGo_no_triple (l : List Char) :
    ∀ pending, hasTripleNl (collapseGo l pending) = false := by
  induction l with
  | nil =>
    intro p
    rw [collapseGo, emitNl]
    by_cases h : p ≥ 3
    · rw [if_pos h]; decide
    · rw [if_neg h]
      interval_cases p <;> decide
  | cons c rest ih =>
    intro p
    rw [collapseGo]
    by_cases h : c = '\n'
    · rw [if_pos h]; exact ih (p + 1)
    · rw [if_neg h, emitNl]
      by_cases h3 : p ≥ 3
      · rw [if_pos h3]
        show hasTripleNl ('\n' :: '\n' :: c :: collapseGo rest 0) = false
        have h2 : hasTripleNl ('\n' :: c :: collapseGo rest 0) = false := by
          rw [hasTripleNl_nl_cons_ne c _ h, hasTripleNl_cons_ne c _ h]
          exact ih 0
        rw [hasTripleNl]
        simp only [List.take, beq_iff_eq]
        have hne : ¬ ('\n' :: c :: List.take 0 (collapseGo rest 0) = ['\n', '\n']) := by
          intro hcc
          exact h (List.cons_eq_cons.mp (List.cons_eq_cons.mp hcc).2).1
        simp [hne, h2, h]
      · rw [if_neg h3]
        interval_cases p
        · simpa using (hasTripleNl_cons_ne c _ h).trans (ih 0)
        · show hasTripleNl ('\n' :: c :: collapseGo rest 0) = false
          rw [hasTripleNl_nl_cons_ne c _ h, hasTripleNl_cons_ne c _ h]
          exact ih 0
        · show hasTripleNl ('\n' :: '\n' :: c :: collapseGo rest 0) = false
          rw [hasTripleNl]
          simp only [List.take, beq_iff_eq]
          have hne : ¬ ('\n' :: c :: List.take 0 (collapseGo rest 0) = ['\n', '\n']) := by
            intro hcc
            exact h (List.cons_eq_cons.mp (List.cons_eq_cons.mp hcc).2).1
          have h2 : hasTripleNl ('\n' :: c :: collapseGo rest 0) = false := by
            rw [hasTripleNl_nl_cons_ne c _ h, hasTripleNl_cons_ne c _ h]
            exact ih 0
          simp [hne, h2, h]

/-- C5 (amended): after the minimal pass, every run of three or more
consecutive newlines in the joined intermediate result — i.e. two or more
consecutive blank lines — is collapsed to exactly two newlines (one blank
line), so for every known language the output of `filterMinimal` never
contains three consecutive newlines; and the output is trimmed of leading and
trailing whitespace (`trimStr` is a fixpoint on it). -/
theorem c5_blank_collapse_trimmed (content : List Char) (lang : Language)
    (h : lang ≠ Language.unknown) :
    hasTripleNl (filterMinimal content lang) = false ∧
      trimStr (filterMinimal content lang) = filterMinimal content lang := by
  unfold filterMinimal
  rw [if_neg h]
  constructor
  · exact hasTripleNl_false_of_within _ _ (trimStr_within _) (collapseGo_no_triple _ 0)
  · exact trimStr_idem _

/-- C5 counterexample: a run of three blank lines (four newlines) collapses to
one blank line (two newlines), not to the two blank lines the claim states. -/
theorem c5_counterexample :
    filterMinimal (lc ("a\n\n\n\nb")) Language.typescript = lc ("a\n\nb") ∧
      filterMinimal (lc ("a\n\n\n\nb")) Language.typescript ≠ lc ("a\n\n\nb") := by
  decide

/-- C5 witness: a concrete known-language input for the amended theorem. -/
theorem c5_witness :
    Language.typescript ≠ Language.unknown ∧
      (hasTripleNl (filterMinimal (lc ("a\n\n\n\nb")) Language.typescript) = false ∧
        trimStr (filterMinimal (lc ("a\n\n\n\nb")) Language.typescript) =
          filterMinimal (lc ("a\n\n\n\nb")) Language.typescript) :=
  ⟨by decide, c5_blank_collapse_trimmed (lc ("a\n\n\n\nb")) Language.typescript (by decide)⟩

/-! ## C10: the search grouper's not-applicable contract -/

theorem parseSearchGo_all_ws (l : List Char) (h : ∀ c ∈ l, jsWs c = true) :
    ∀ acc, parseSearchGo acc l = none := by
  induction l with
  | nil => intro acc; rfl
  | cons c rest ih =>
    intro acc
    rw [parseSearchGo]
    have hc : c ≠ ':' := by
      intro e
      have := h c (List.mem_cons_self c rest)
      rw [e] at this
      exact absurd this (by decide)
    rw [if_neg (fun hcontra => hc hcontra.1)]
    exact ih (fun x hx => h x (List.mem_cons_of_mem c hx)) _

/-- C10: `groupSearchResults` returns `none` exactly when no line of the input
parses as a `file:line?:content` search hit (blank lines never parse, so empty
or all-blank input yields `none`); whenever some line parses, the result is a
report string, never a failure. -/
theorem c10_group_null_iff_no_parse (text : List Char) (maxResults : Nat) :
    groupSearchResults text maxResults = none ↔
      ∀ l ∈ splitLines text, parseSearchLine l = none := by
  have hbase : groupSearchResults text maxResults = none ↔
      collectSearchResults (splitLines text) = [] := by
    unfold groupSearchResults
    by_cases h : collectSearchResults (splitLines text) = []
    · rw [if_pos h]; simp [h]
    · rw [if_neg h]; simp [h]
  rw [hbase]
  unfold collectSearchResults
  rw [List.filterMap_eq_nil_iff]
  constructor
  · intro h l hl
    have hline := h l hl
    by_cases ht : trimStr l = []
    · exact parseSearchGo_all_ws l (allWs_of_trim_eq_nil l ht) []
    · rw [if_neg ht] at hline
      exact hline
  · intro h l hl
    by_cases ht : trimStr l = []
    · rw [if_pos ht]
    · rw [if_neg ht]
      exact h l hl

/-! ## C9: successful builds -/

theorem buildStep_clean (st : BuildScan) (line : List Char)
    (h1 : isErrorStart line = false) (h2 : isWarning line = false)
    (hin : st.inErrorBlock = false) :
    buildStep st line =
      { st with compiled := st.compiled + (if isUnitLine line then 1 else 0) } := by
  obtain ⟨cp, er, wa, ib, ce, bc⟩ := st
  simp only at hin
  subst hin
  unfold buildStep
  by_cases hu : isUnitLine line
  · simp [hu]
  · by_cases hs : isSkipLine line
    · simp [hu, hs]
    · simp [hu, hs, h1, h2]

theorem buildScan_clean (lines : List (List Char))
    (h : ∀ l ∈ lines, isErrorStart l = false ∧ isWarning l = false) :
    ∀ st : BuildScan, st.inErrorBlock = false →
      lines.foldl buildStep st =
        { st with compiled := st.compiled + lines.countP (fun l => isUnitLine l) } := by
  induction lines with
  | nil => intro st hin; simp
  | cons l rest ih =>
    intro st hin
    have hl := h l (List.mem_cons_self l rest)
    rw [List.foldl_cons, buildStep_clean st l hl.1 hl.2 hin]
    rw [ih (fun x hx => h x (List.mem_cons_of_mem l hx))
      { st with compiled := st.compiled + (if isUnitLine l then 1 else 0) } hin]
    simp only [List.countP_cons, BuildScan.mk.injEq, and_true, true_and]
    by_cases hu : isUnitLine l <;> simp [hu] <;> omega

/-- C9: for every build command and every input none of whose lines is an
error start or a warning, `filterBuildOutput` returns exactly
`"[OK] Build successful (N units compiled)"` where `N` counts the
Compiling/Checking/Building unit-start lines. -/
theorem c9_build_success_report (text command : List Char)
    (hc : isBuildCommand command = true)
    (h : ∀ l ∈ splitLines text, isErrorStart l = false ∧ isWarning l = false) :
    filterBuildOutput text command =
      some (buildOkMsg ((splitLines text).countP (fun l => isUnitLine l))) := by
  unfold filterBuildOutput
  rw [if_pos hc]
  unfold buildScanLines
  rw [buildScan_clean (splitLines text) h buildScanInit rfl]
  show some (formatBuildResult _) = _
  unfold formatBuildResult buildScanInit
  simp

/-- C9 witness: two Compiling lines under `go build`. -/
theorem c9_witness :
    isBuildCommand (lc ("go build")) = true ∧
      (∀ l ∈ splitLines (lc ("Compiling foo\nCompiling bar")),
        isErrorStart l = false ∧ isWarning l = false) ∧
      filterBuildOutput (lc ("Compiling foo\nCompiling bar")) (lc ("go build")) =
        some (lc ("[OK] Build successful (2 units compiled)")) := by
  refine ⟨by decide, by decide, ?_⟩
  rw [c9_build_success_report (lc ("Compiling foo\nCompiling bar")) (lc ("go build"))
    (by decide) (by decide)]
  decide

/-! ## C7: every opened block is flushed exactly once -/

/-- The per-line effect on the number of flushed-or-open blocks of the build
scanner: it grows by one exactly at the lines that open a block (the processed
error-start lines), and an open block always has content. -/
theorem buildStep_once (st : BuildScan) (line : List Char)
    (hinv : st.inErrorBlock = true → st.currentError ≠ []) :
    ((buildStep st line).errors.length +
        (if (buildStep st line).inErrorBlock then 1 else 0) =
      st.errors.length + (if st.inErrorBlock then 1 else 0) +
        (if (!isUnitLine line && !isSkipLine line && isErrorStart line) then 1 else 0)) ∧
      ((buildStep st line).inErrorBlock = true → (buildStep st line).currentError ≠ []) := by
  by_cases hu : isUnitLine line
  · refine ⟨by simp [buildStep, hu], ?_⟩
    simp only [buildStep, hu, if_true, if_pos]
    exact hinv
  · by_cases hs : isSkipLine line
    · refine ⟨by simp [buildStep, hu, hs], ?_⟩
      simp only [buildStep, hu, hs]
      simp only [Bool.false_eq_true, if_false, if_true]
      exact hinv
    · by_cases he : isErrorStart line
      · by_cases hb : st.inErrorBlock = true ∧ st.currentError ≠ []
        · obtain ⟨hb1, hb2⟩ := hb
          refine ⟨by simp [buildStep, hu, hs, he, hb1, hb2], ?_⟩
          simp [buildStep, hu, hs, he, hb1, hb2]
        · have hfalse : st.inErrorBlock = false := by
            cases hx : st.inErrorBlock
            · rfl
            · exact absurd ⟨hx, hinv hx⟩ hb
          refine ⟨by simp [buildStep, hu, hs, he, hfalse, hb], ?_⟩
          simp [buildStep, hu, hs, he, hfalse, hb]
      · by_cases hw : isWarning line
        · refine ⟨by simp [buildStep, hu, hs, he, hw], ?_⟩
          simp only [buildStep, hu, hs, he, hw]
          simp only [Bool.false_eq_true, if_false, if_true]
          exact hinv
        · by_cases hib : st.inErrorBlock
          · by_cases hbl : trimStr line = []
            · by_cases hcond : 1 ≤ st.blankCount ∧ 3 < st.currentError.length
              · refine ⟨by simp [buildStep, hu, hs, he, hw, hib, hbl, hcond], ?_⟩
                simp [buildStep, hu, hs, he, hw, hib, hbl, hcond]
              · refine ⟨by simp [buildStep, hu, hs, he, hw, hib, hbl, hcond], ?_⟩
                simp [buildStep, hu, hs, he, hw, hib, hbl, hcond]
            · by_cases hcont : isContinuation line
              · refine ⟨by simp [buildStep, hu, hs, he, hw, hib, hbl, hcont], ?_⟩
                simp [buildStep, hu, hs, he, hw, hib, hbl, hcont]
              · refine ⟨by simp [buildStep, hu, hs, he, hw, hib, hbl, hcont], ?_⟩
                simp [buildStep, hu, hs, he, hw, hib, hbl, hcont]
          · refine ⟨by simp [buildStep, hu, hs, he, hw, hib], ?_⟩
            simp only [buildStep, hu, hs, he, hw, hib]
            simp only [Bool.false_eq_true, if_false, if_true]
            exact hinv

theorem buildScan_once (lines : List (List Char)) :
    ∀ st : BuildScan, (st.inErrorBlock = true → st.currentError ≠ []) →
      ((lines.foldl buildStep st).errors.length +
          (if (lines.foldl buildStep st).inErrorBlock then 1 else 0) =
        st.errors.length + (if st.inErrorBlock then 1 else 0) +
          lines.countP (fun l => !isUnitLine l && !isSkipLine l && isErrorStart l)) ∧
        ((lines.foldl buildStep st).inErrorBlock = true →
          (lines.foldl buildStep st).currentError ≠ []) := by
  induction lines with
  | nil => intro st hinv; exact ⟨by simp, hinv⟩
  | cons l rest ih =>
    intro st hinv
    have hstep := buildStep_once st l hinv
    have hrest := ih (buildStep st l) hstep.2
    rw [List.foldl_cons]
    refine ⟨?_, hrest.2⟩
    rw [hrest.1, hstep.1, List.countP_cons]
    by_cases hl : (!isUnitLine l && !isSkipLine l && isErrorStart l) = true <;>
      simp [hl] <;> omega

/-- The per-line effect on the test failure scanner. -/
theorem failStep_once (st : FailScan) (line : List Char)
    (hinv : st.inFailure = true → st.currentFailure ≠ []) :
    ((failStep st line).failures.length +
        (if (failStep st line).inFailure then 1 else 0) =
      st.failures.length + (if st.inFailure then 1 else 0) +
        (if isFailureStart line then 1 else 0)) ∧
      ((failStep st line).inFailure = true → (failStep st line).currentFailure ≠ []) := by
  by_cases he : isFailureStart line
  · by_cases hb : st.inFailure = true ∧ st.currentFailure ≠ []
    · obtain ⟨hb1, hb2⟩ := hb
      refine ⟨by simp [failStep, he, hb1, hb2], ?_⟩
      simp [failStep, he, hb1, hb2]
    · have hfalse : st.inFailure = false := by
        cases hx : st.inFailure
        · rfl
        · exact absurd ⟨hx, hinv hx⟩ hb
      refine ⟨by simp [failStep, he, hfalse, hb], ?_⟩
      simp [failStep, he, hfalse, hb]
  · by_cases hib : st.inFailure
    · by_cases hbl : trimStr line = []
      · by_cases hcond : 1 ≤ st.blankCount ∧ 3 < st.currentFailure.length
        · refine ⟨by simp [failStep, he, hib, hbl, hcond], ?_⟩
          simp [failStep, he, hib, hbl, hcond]
        · refine ⟨by simp [failStep, he, hib, hbl, hcond], ?_⟩
          simp [failStep, he, hib, hbl, hcond]
      · by_cases hcont : isTestContinuation line = true
        · refine ⟨by simp [failStep, he, hib, hbl, hcont], ?_⟩
          simp [failStep, he, hib, hbl, hcont]
        · refine ⟨by simp [failStep, he, hib, hbl, hcont], ?_⟩
          simp [failStep, he, hib, hbl, hcont]
    · refine ⟨by simp [failStep, he, hib], ?_⟩
      simp only [failStep, he, hib]
      simp only [Bool.false_eq_true, if_false, if_true]
      exact hinv

theorem failScan_once (lines : List (List Char)) :
    ∀ st : FailScan, (st.inFailure = true → st.currentFailure ≠ []) →
      ((lines.foldl failStep st).failures.length +
          (if (lines.foldl failStep st).inFailure then 1 else 0) =
        st.failures.length + (if st.inFailure then 1 else 0) +
          lines.countP (fun l => isFailureStart l)) ∧
        ((lines.foldl failStep st).inFailure = true →
          (lines.foldl failStep st).currentFailure ≠ []) := by
  induction lines with
  | nil => intro st hinv; exact ⟨by simp, hinv⟩
  | cons l rest ih =>
    intro st hinv
    have hstep := failStep_once st l hinv
    have hrest := ih (failStep st l) hstep.2
    rw [List.foldl_cons]
    refine ⟨?_, hrest.2⟩
    rw [hrest.1, hstep.1, List.countP_cons]
    by_cases hl : isFailureStart l = true <;> simp [hl] <;> omega

/-- C7: in the build error-block scanner and the test failure-block scanner,
every opened block is flushed into the result list exactly once (on closure,
on the next start line, or at end-of-stream, where a still-open nonempty block
is always flushed): the number of collected blocks equals the number of lines
that open a block — for the build scanner the error-start lines not consumed
by the unit/skip rules, for the test scanner the failure-start lines. -/
theorem c7_blocks_flushed_exactly_once (text : List Char) :
    (buildScanLines (splitLines text)).errors.length =
        (splitLines text).countP
          (fun l => !isUnitLine l && !isSkipLine l && isErrorStart l) ∧
      (testFailureBlocks (splitLines text)).length =
        (splitLines text).countP (fun l => isFailureStart l) := by
  constructor
  · unfold buildScanLines
    have h := buildScan_once (splitLines text) buildScanInit (by intro h; cases h)
    set st := (splitLines text).foldl buildStep buildScanInit with hst
    by_cases hb : st.inErrorBlock = true ∧ st.currentError ≠ []
    · rw [if_pos hb]
      have := h.1
      rw [if_pos hb.1] at this
      simp [buildScanInit] at this
      simp only [List.length_append, List.length_cons, List.length_nil]
      omega
    · rw [if_neg hb]
      have hfalse : st.inErrorBlock = false := by
        cases hx : st.inErrorBlock
        · rfl
        · exact absurd ⟨hx, h.2 hx⟩ hb
      have := h.1
      rw [hfalse] at this
      simp [buildScanInit] at this
      simpa using this
  · unfold testFailureBlocks
    have h := failScan_once (splitLines text) ⟨[], false, [], 0⟩ (by intro h; cases h)
    set st := (splitLines text).foldl failStep ⟨[], false, [], 0⟩ with hst
    by_cases hb : st.inFailure = true ∧ st.currentFailure ≠ []
    · rw [if_pos hb]
      have := h.1
      rw [if_pos hb.1] at this
      simp at this
      simp only [List.length_append, List.length_cons, List.length_nil]
      omega
    · rw [if_neg hb]
      have hfalse : st.inFailure = false := by
        cases hx : st.inFailure
        · rfl
        · exact absurd ⟨hx, h.2 hx⟩ hb
      have := h.1
      rw [hfalse] at this
      simp at this
      simpa using this

/-! ## C1: the cargo summary line -/

/-- C1: the code contradicts the claim.  The first summary regex captures the
status word (`ok`) in group 1 and the passed/failed counts in groups 2/3, but
`extractTestStats` reads groups 1/2/3 as passed/failed/skipped, so
`"test result: ok. 3 passed; 1 failed;"` under `cargo test` is reported as
`PASS: 0 passed`, `FAIL: 3 failed`, `SKIP: 1 skipped` instead of the claimed
`PASS: 3 passed` and `FAIL: 1 failed`. -/
theorem c1_cargo_summary_misassigned :
    aggregateTestOutput (lc ("test result: ok. 3 passed; 1 failed;")) (lc ("cargo test")) =
      some (lc ("Test Results:\n   PASS: 0 passed\n   FAIL: 3 failed\n   SKIP: 1 skipped")) := by
  decide

/-! ## C2: aggressive filtering of a brace-delimited function body -/

theorem getLast?_mem_of_countChar (c : Char) (l : List Char)
    (h : countChar c l = 0) : l.getLast? ≠ some c := by
  intro he
  have hmem : c ∈ l := List.mem_of_mem_getLast? he
  have := List.countP_eq_zero.mp h c hmem
  simp at this

theorem aggStep_stmt (st : AggState) (s : List Char)
    (himpl : st.inImplementation = true) (hdepth : st.braceDepth = 1)
    (h1 : countChar '\x7b' (trimStr s) = 0) (h2 : countChar '\x7d' (trimStr s) = 0)
    (h3 : importPattern (trimStr s) = false)
    (h4 : signaturePattern (trimStr s) = false) :
    aggStep st s = st := by
  obtain ⟨res, bd, impl⟩ := st
  simp only at himpl hdepth
  subst himpl hdepth
  have hno7b : trimStr s ≠ ['\x7b'] := by
    intro he; rw [he] at h1; exact absurd h1 (by decide)
  have hno7d : trimStr s ≠ ['\x7d'] := by
    intro he; rw [he] at h2; exact absurd h2 (by decide)
  have hlast : (trimStr s).getLast? ≠ some '\x7b' := getLast?_mem_of_countChar _ _ h1
  unfold aggStep
  simp only [h3, h4, Bool.false_eq_true, if_false, if_true, h1, h2]
  norm_num [hno7b, hno7d, hlast]

theorem aggFold_stmts (stmts : List (List Char))
    (h : ∀ s ∈ stmts, countChar '\x7b' (trimStr s) = 0 ∧
      countChar '\x7d' (trimStr s) = 0 ∧ importPattern (trimStr s) = false ∧
      signaturePattern (trimStr s) = false) :
    ∀ st : AggState, st.inImplementation = true → st.braceDepth = 1 →
      stmts.foldl aggStep st = st := by
  induction stmts with
  | nil => intro st _ _; rfl
  | cons s rest ih =>
    intro st himpl hdepth
    have hs := h s (List.mem_cons_self s rest)
    rw [List.foldl_cons, aggStep_stmt st s himpl hdepth hs.1 hs.2.1 hs.2.2.1 hs.2.2.2]
    exact ih (fun x hx => h x (List.mem_cons_of_mem s hx)) st himpl hdepth

/-- C2 (amended): for a known language, a function written with its signature
on one line, the opening `{` and closing `}` on lines of their own, and a
multi-statement brace-free body, `filterAggressive` keeps exactly the
signature line, the opening `{` and the closing `}`, and drops every
statement of the body; the `"    // ... implementation"` placeholder is *not*
emitted, because the line that returns the brace depth to 0 is a lone `}`
(the placeholder appears only when that closing line is neither blank nor a
lone `}`). -/
theorem c2_aggressive_function_body (lang : Language) (sig opn cls : List Char)
    (stmts : List (List Char))
    (hlang : lang ≠ Language.unknown)
    (hmin : filterMinimal (joinLines (sig :: opn :: (stmts ++ [cls]))) lang =
      joinLines (sig :: opn :: (stmts ++ [cls])))
    (hnl : ∀ l ∈ sig :: opn :: (stmts ++ [cls]), '\n' ∉ l)
    (hsig : signaturePattern (trimStr sig) = true)
    (hsigimp : importPattern (trimStr sig) = false)
    (hopn : trimStr opn = ['\x7b'])
    (hcls : trimStr cls = ['\x7d'])
    (hstmts : ∀ s ∈ stmts, countChar '\x7b' (trimStr s) = 0 ∧
      countChar '\x7d' (trimStr s) = 0 ∧ importPattern (trimStr s) = false ∧
      signaturePattern (trimStr s) = false) :
    filterAggressive (joinLines (sig :: opn :: (stmts ++ [cls]))) lang =
      trimStr (sig ++ '\n' :: opn ++ '\n' :: cls) := by
  unfold filterAggressive
  rw [if_neg hlang, hmin, splitLines_joinLines _ (List.cons_ne_nil _ _) hnl]
  have hsigstep : aggStep ⟨[], 0, false⟩ sig = ⟨[sig], 0, true⟩ := by
    unfold aggStep
    simp [hsigimp, hsig]
  have hopnstep : aggStep ⟨[sig], 0, true⟩ opn = ⟨[sig, opn], 1, true⟩ := by
    have e1 : ¬(importPattern (trimStr opn) = true) := by rw [hopn]; decide
    have e2 : ¬(signaturePattern (trimStr opn) = true) := by rw [hopn]; decide
    unfold aggStep
    rw [if_neg e1, if_neg e2, hopn, if_pos rfl]
    simp only [show ((countChar '\x7b' ['\x7b'] : Nat) : Int) = 1 from by decide,
      show ((countChar '\x7d' ['\x7b'] : Nat) : Int) = 0 from by decide]
    norm_num
  have hclsstep : aggStep ⟨[sig, opn], 1, true⟩ cls = ⟨[sig, opn, cls], 0, false⟩ := by
    have e1 : ¬(importPattern (trimStr cls) = true) := by rw [hcls]; decide
    have e2 : ¬(signaturePattern (trimStr cls) = true) := by rw [hcls]; decide
    unfold aggStep
    rw [if_neg e1, if_neg e2, hcls, if_pos rfl]
    simp only [show ((countChar '\x7b' ['\x7d'] : Nat) : Int) = 0 from by decide,
      show ((countChar '\x7d' ['\x7d'] : Nat) : Int) = 1 from by decide]
    norm_num
  rw [List.foldl_cons, hsigstep, List.foldl_cons, hopnstep, List.foldl_append,
    aggFold_stmts stmts hstmts ⟨[sig, opn], 1, true⟩ rfl rfl,
    List.foldl_cons, hclsstep, List.foldl_nil]
  simp [joinLines, List.append_assoc]

/-- C2 counterexample: an Allman-style function with a two-statement body is
filtered to signature, `{`, `}` with no placeholder line, contradicting the
claim that exactly one `"    // ... implementation"` line is kept. -/
theorem c2_counterexample :
    filterAggressive (lc ("fn foo()\n\x7b\n    let a = 1;\n    let b = 2;\n\x7d"))
        Language.rust =
      lc ("fn foo()\n\x7b\n\x7d") ∧
      filterAggressive (lc ("fn foo()\n\x7b\n    let a = 1;\n    let b = 2;\n\x7d"))
          Language.rust ≠
        lc ("fn foo()\n\x7b\n    // ... implementation\n\x7d") := by
  decide

/-- C2 witness: the amended theorem applied to a concrete Rust function. -/
theorem c2_witness :
    filterAggressive (lc ("fn f()\n\x7b\nlet a = 1;\nlet b = 2;\n\x7d")) Language.rust =
      lc ("fn f()\n\x7b\n\x7d") := by
  have h := c2_aggressive_function_body Language.rust (lc ("fn f()")) (lc ("\x7b"))
    (lc ("\x7d")) [lc ("let a = 1;"), lc ("let b = 2;")]
    (by decide) (by decide) (by decide) (by decide) (by decide) (by decide) (by decide)
    (by decide)
  have heq : joinLines (lc ("fn f()") :: lc ("\x7b") ::
      ([lc ("let a = 1;"), lc ("let b = 2;")] ++ [lc ("\x7d")])) =
      lc ("fn f()\n\x7b\nlet a = 1;\nlet b = 2;\n\x7d") := by decide
  rw [heq] at h
  rw [h]
  decide

/-! ## C3: the smart truncator's output size -/

theorem truncStep_bound (total m : Nat) (st : TruncState) (l : List Char)
    (h : st.result.length ≤ 2 * st.keptLines) :
    (truncStep total m st l).result.length ≤ 2 * (truncStep total m st l).keptLines ∧
      st.keptLines ≤ (truncStep total m st l).keptLines ∧
      (truncStep total m st l).keptLines ≤ st.keptLines + 1 := by
  unfold truncStep
  by_cases hc : importantPattern (trimStr l) = true ∨ 2 * st.keptLines < m
  · rw [if_pos hc]
    by_cases hs : st.skippedSection = true <;> simp [hs, List.length_append] <;> omega
  · rw [if_neg hc]
    exact ⟨h, Nat.le_refl _, Nat.le_succ _⟩

theorem truncStep_no_nl (total m : Nat) (st : TruncState) (l : List Char)
    (hst : ∀ x ∈ st.result, '\n' ∉ x) (hl : '\n' ∉ l) :
    ∀ x ∈ (truncStep total m st l).result, '\n' ∉ x := by
  have hmarker : '\n' ∉ lc ("    // ... ") ++
      intStr ((total : Int) - (st.result.length : Int) - (st.keptLines : Int)) ++
      lc (" lines omitted") := by
    intro hmem
    rcases List.mem_append.mp hmem with h1 | h1
    · rcases List.mem_append.mp h1 with h2 | h2
      · exact absurd h2 (by decide)
      · exact intStr_ne_nl _ h2
    · exact absurd h1 (by decide)
  unfold truncStep
  by_cases hc : importantPattern (trimStr l) = true ∨ 2 * st.keptLines < m
  · rw [if_pos hc]
    by_cases hs : st.skippedSection = true
    · intro x hx
      simp only [hs, if_true] at hx
      rcases List.mem_append.mp hx with h1 | h1
      · rcases List.mem_append.mp h1 with h2 | h2
        · exact hst x h2
        · rw [List.mem_singleton] at h2
          subst h2
          exact hmarker
      · rw [List.mem_singleton] at h1
        subst h1
        exact hl
    · intro x hx
      simp only [hs, Bool.false_eq_true, if_false] at hx
      rcases List.mem_append.mp hx with h1 | h1
      · exact hst x h1
      · rw [List.mem_singleton] at h1
        subst h1
        exact hl
  · rw [if_neg hc]
    exact hst

theorem truncGo_bound (total m : Nat) (lines : List (List Char)) :
    ∀ st : TruncState, st.result.length ≤ 2 * st.keptLines →
      (truncGo total m lines st).result.length ≤
          2 * (truncGo total m lines st).keptLines ∧
        (truncGo total m lines st).keptLines ≤ max (st.keptLines + 1) (m - 1) := by
  induction lines with
  | nil =>
    intro st h
    rw [truncGo]
    exact ⟨h, (Nat.le_succ _).trans (Nat.le_max_left _ _)⟩
  | cons l rest ih =>
    intro st h
    rw [truncGo]
    have hstep := truncStep_bound total m st l h
    by_cases hbr : m - 1 ≤ (truncStep total m st l).keptLines
    · rw [if_pos hbr]
      exact ⟨hstep.1, hstep.2.2.trans (Nat.le_max_left _ _)⟩
    · rw [if_neg hbr]
      have hrec := ih (truncStep total m st l) hstep.1
      refine ⟨hrec.1, ?_⟩
      have h2 : (truncStep total m st l).keptLines + 1 ≤ m - 1 := by omega
      exact hrec.2.trans ((Nat.max_le.mpr ⟨h2, Nat.le_refl _⟩).trans
        (Nat.le_max_right _ _))

theorem truncGo_no_nl (total m : Nat) (lines : List (List Char)) :
    ∀ st : TruncState, (∀ x ∈ st.result, '\n' ∉ x) → (∀ l ∈ lines, '\n' ∉ l) →
      ∀ x ∈ (truncGo total m lines st).result, '\n' ∉ x := by
  induction lines with
  | nil => intro st hst _; rw [truncGo]; exact hst
  | cons l rest ih =>
    intro st hst hlines
    rw [truncGo]
    have hstep := truncStep_no_nl total m st l hst (hlines l (List.mem_cons_self l rest))
    by_cases hbr : m - 1 ≤ (truncStep total m st l).keptLines
    · rw [if_pos hbr]; exact hstep
    · rw [if_neg hbr]
      exact ih (truncStep total m st l) hstep
        (fun x hx => hlines x (List.mem_cons_of_mem l hx))

/-- C3 (amended): the kept source lines are capped at `maxLines − 1`, but the
omitted-count markers (one per contiguous dropped run that is followed by a
kept line — a trailing dropped run gets none) and the trailing summary line
are emitted on top of them, so the output line count is not bounded by the
budget itself: it can reach up to `2·maxLines + 1` lines, and that bound
always holds (for any budget `maxLines ≥ 1` and any input). -/
theorem c3_line_budget_bound (content : List Char) (m : Nat) (lang : Language)
    (hm : 1 ≤ m) :
    countLines (smartTruncate content m lang) ≤ 2 * m + 1 := by
  unfold smartTruncate
  by_cases hle : (splitLines content).length ≤ m
  · rw [if_pos hle]
    show (splitLines content).length ≤ 2 * m + 1
    omega
  · rw [if_neg hle]
    have hb := truncGo_bound (splitLines content).length m (splitLines content)
      ⟨[], 0, false⟩ (by simp)
    have hnl := truncGo_no_nl (splitLines content).length m (splitLines content)
      ⟨[], 0, false⟩ (by intro x hx; cases hx)
      (fun l hl hmem => mem_splitOnChar_not_sep '\n' content l hl hmem)
    have hmax : max 1 (m - 1) ≤ m := Nat.max_le.mpr ⟨hm, by omega⟩
    have hkept : (truncGo (splitLines content).length m (splitLines content)
        ⟨[], 0, false⟩).keptLines ≤ m := by
      refine le_trans ?_ hmax
      simpa using hb.2
    have hsummary : '\n' ∉ lc ("// ... ") ++
        numStr ((splitLines content).length - (truncGo (splitLines content).length m
          (splitLines content) ⟨[], 0, false⟩).keptLines) ++
        lc (" more lines (total: ") ++ numStr (splitLines content).length ++
        lc (")") := by
      intro hmem
      rcases List.mem_append.mp hmem with h1 | h1
      · rcases List.mem_append.mp h1 with h2 | h2
        · rcases List.mem_append.mp h2 with h3 | h3
          · rcases List.mem_append.mp h3 with h4 | h4
            · exact absurd h4 (by decide)
            · exact numStr_ne_nl _ h4
          · exact absurd h3 (by decide)
        · exact numStr_ne_nl _ h2
      · exact absurd h1 (by decide)
    have hlen : (truncFinal (splitLines content) m).length ≤
        (truncGo (splitLines content).length m (splitLines content)
          ⟨[], 0, false⟩).result.length + 1 := by
      unfold truncFinal
      by_cases hcond : (truncGo (splitLines content).length m (splitLines content)
          ⟨[], 0, false⟩).skippedSection = true ∨
          (truncGo (splitLines content).length m (splitLines content)
            ⟨[], 0, false⟩).keptLines < (splitLines content).length
      · rw [if_pos hcond]; simp
      · rw [if_neg hcond]; simp
    have hnl2 : ∀ x ∈ truncFinal (splitLines content) m, '\n' ∉ x := by
      unfold truncFinal
      by_cases hcond : (truncGo (splitLines content).length m (splitLines content)
          ⟨[], 0, false⟩).skippedSection = true ∨
          (truncGo (splitLines content).length m (splitLines content)
            ⟨[], 0, false⟩).keptLines < (splitLines content).length
      · rw [if_pos hcond]
        intro x hx
        rcases List.mem_append.mp hx with h1 | h1
        · exact hnl x h1
        · rw [List.mem_singleton] at h1
          subst h1
          exact hsummary
      · rw [if_neg hcond]
        exact hnl
    rcases hres0 : truncFinal (splitLines content) m with _ | ⟨r0, rrest⟩
    · show (1 : Nat) ≤ 2 * m + 1
      omega
    · rw [countLines_joinLines _ (List.cons_ne_nil _ _) (hres0 ▸ hnl2)]
      rw [hres0] at hlen
      have h1 := hb.1
      omega

set_option maxRecDepth 100000 in
/-- C3 counterexample: a 500-line input (100 declarations, a dropped line, 98
declarations, a dropped line, one more declaration, 299 further lines) with a
200-line budget, in which only declaration-pattern lines are kept, yields 202
output lines (199 kept + 2 omitted-count markers + 1 summary), exceeding the
claimed 200-line bound. -/
theorem c3_counterexample :
    (splitLines c3Input).length = 500 ∧
      200 < countLines (smartTruncate c3Input 200 Language.typescript) := by
  decide

/-- C3 witness for the amended bound. -/
theorem c3_witness :
    1 ≤ 200 ∧ countLines (smartTruncate c3Input 200 Language.typescript) ≤ 2 * 200 + 1 :=
  ⟨by decide, c3_line_budget_bound c3Input 200 Language.typescript (by decide)⟩

/-! ## C8: whole-token matching of test commands -/

theorem isTokenIn_iff (tc cmd : List Char) :
    isTokenIn tc cmd = true ↔
      ∃ pre post, cmd = pre ++ tc ++ post ∧
        (∀ c, pre.getLast? = some c → isSepChar c = true) ∧
        (∀ c, post.head? = some c → isSepChar c = true) := by
  unfold isTokenIn
  rw [List.any_eq_true]
  constructor
  · rintro ⟨i, hi, hcond⟩
    simp only [Bool.and_eq_true] at hcond
    obtain ⟨⟨hpre, hleft⟩, hright⟩ := hcond
    have hprefix : tc <+: cmd.drop i := List.isPrefixOf_iff_prefix.mp hpre
    obtain ⟨post, hpost⟩ := hprefix
    refine ⟨cmd.take i, post, ?_, ?_, ?_⟩
    · conv_lhs => rw [← List.take_append_drop i cmd]
      rw [← hpost, List.append_assoc]
    · intro c hc
      rw [hc] at hleft
      exact hleft
    · intro c hc
      rw [← hpost, List.drop_left] at hright
      rw [hc] at hright
      exact hright
  · rintro ⟨pre, post, heq, hl, hr⟩
    refine ⟨pre.length, ?_, ?_⟩
    · rw [List.mem_range]
      have := congrArg List.length heq
      simp only [List.length_append] at this
      omega
    · have htake : cmd.take pre.length = pre := by
        rw [heq, List.append_assoc, List.take_left]
      have hdrop : cmd.drop pre.length = tc ++ post := by
        rw [heq, List.append_assoc, List.drop_left]
      simp only [Bool.and_eq_true]
      refine ⟨⟨?_, ?_⟩, ?_⟩
      · rw [hdrop]
        exact List.isPrefixOf_iff_prefix.mpr ⟨post, rfl⟩
      · rw [htake]
        rcases hgl : pre.getLast? with _ | c
        · rfl
        · exact hl c hgl
      · rw [hdrop, List.drop_left]
        rcases hh : post.head? with _ | c
        · rfl
        · exact hr c hh

/-- C8: when every occurrence of a known test-runner name in the
(lower-cased) command fails to be a standalone token — some occurrence
boundary is neither the string edge nor a whitespace/`|`/`;`/`&` separator —
`isTestCommand` is false and `aggregateTestOutput` is not applicable. -/
theorem c8_substring_token_rejected (cmd out : List Char)
    (h : ∀ tc ∈ testCommands, ∀ pre post,
      lowerStr cmd = pre ++ lowerStr tc ++ post →
        ¬((∀ c, pre.getLast? = some c → isSepChar c = true) ∧
          (∀ c, post.head? = some c → isSepChar c = true))) :
    isTestCommand cmd = false ∧ aggregateTestOutput out cmd = none := by
  have hfalse : isTestCommand cmd = false := by
    unfold isTestCommand
    by_cases he : cmd.isEmpty
    · rw [if_pos he]
    · rw [if_neg he]
      rw [List.any_eq_false]
      intro tc htc
      intro hcontra
      obtain ⟨pre, post, heq, hpl, hpr⟩ := (isTokenIn_iff (lowerStr tc) (lowerStr cmd)).mp hcontra
      exact h tc htc pre post heq ⟨hpl, hpr⟩
  refine ⟨hfalse, ?_⟩
  unfold aggregateTestOutput
  rw [if_pos]
  rw [hfalse]
  exact Bool.false_ne_true

/-- C8 witness: in `latest` the name `test` occurs only inside a longer word,
so the command is not a test command and the aggregator is not applicable. -/
theorem c8_witness :
    isTestCommand (lc ("latest")) = false ∧
      aggregateTestOutput (lc ("hello")) (lc ("latest")) = none := by
  have h : ∀ tc ∈ testCommands, ∀ pre post,
      lowerStr (lc ("latest")) = pre ++ lowerStr tc ++ post →
        ¬((∀ c, pre.getLast? = some c → isSepChar c = true) ∧
          (∀ c, post.head? = some c → isSepChar c = true)) := by
    intro tc htc pre post heq hb
    have htoken : isTokenIn (lowerStr tc) (lowerStr (lc ("latest"))) = true :=
      (isTokenIn_iff (lowerStr tc) (lowerStr (lc ("latest")))).mpr
        ⟨pre, post, heq, hb.1, hb.2⟩
    fin_cases htc <;> exact absurd htoken (by decide)
  exact c8_substring_token_rejected (lc ("latest")) (lc ("hello")) h

end Rtk
